import Mathlib

/-!
Verification of the numerical solver core of the EdgeworthExplorer repository
(`src/utils/economic_calculations.py`).

The Python source computes with IEEE floats; the embedding models the same
arithmetic exactly over `ℚ`.  A float that can be `+∞` or NaN only ever flows
into comparisons of the form `v < best` in the source, where an infinite or NaN
left operand never wins and an infinite right operand (the initial
`float('inf')`) always loses; such values are modelled by `Option ℚ` with
`none` playing the role of `+∞`/NaN, and `optLt` reproducing exactly those
float comparisons.  Python `while` loops are embedded with an explicit fuel
argument (`fueledLoop`); all structural theorems hold for every fuel, and the
termination theorem (C10) shows a sufficient fuel always exists.

`np.linspace`, `np.convolve(..., 'valid')` and the stable `list.sort` are
embedded by `linspace`, `movingAverage` and `List.mergeSort` (Lean's merge
sort is stable, like Python's sort).  Appending to a growing accumulator list
inside a `for` loop is embedded with `List.filterMap` / `List.foldl` as noted
at each definition.
-/

/-- Default forward-difference step of `calculate_mrs` (`epsilon = 1e-6` in the
source); every call site in the source uses the default. -/
def mrsEps : ℚ := 1 / 1000000

/-- Embedding of `np.linspace(a, b, n)`: `n` evenly spaced samples from `a` to
`b`, endpoints included. -/
def linspace (a b : ℚ) (n : ℕ) : List ℚ :=
  match n with
  | 0 => []
  | 1 => [a]
  | _ => (List.range n).map (fun i => a + (b - a) * i / (n - 1))

/-- Float comparison `v < w` where either side may be `+∞`/NaN (`none`):
a `none` left operand never wins (as for `inf < b` and `nan < b` in Python),
a `none` right operand loses against any finite value (`a < inf`). -/
def optLt : Option ℚ → Option ℚ → Bool
  | some a, some b => decide (a < b)
  | some _, none => true
  | none, _ => false

/-- Float comparison `v ≤ w` under the same `none` = `+∞` convention; used for
the ascending sort of `x_candidates` by their `demand_excess` key. -/
def optLe : Option ℚ → Option ℚ → Bool
  | some a, some b => decide (a ≤ b)
  | some _, none => true
  | none, some _ => false
  | none, none => true

/-- Embedding of `calculate_mrs`: forward-difference marginal rate of
substitution.  The source returns `-dx/dy if dy != 0 else np.inf`; the `np.inf`
branch is `none` here. -/
def calculate_mrs (util_func : ℚ → ℚ → ℚ) (x y epsilon : ℚ) : Option ℚ :=
  let dx := (util_func (x + epsilon) y - util_func x y) / epsilon
  let dy := (util_func x (y + epsilon) - util_func x y) / epsilon
  if dy ≠ 0 then some (-dx / dy) else none

/-- `abs (mrs_a - mrs_b)` when both MRS values are finite; `none` when either
is infinite (in the source the difference is then `±inf` or NaN, and such a
value never passes a `diff < best_diff` test, exactly like `none` in
`optLt`). -/
def mrsDiff : Option ℚ → Option ℚ → Option ℚ
  | some a, some b => some |a - b|
  | _, _ => none

/-- The MRS gap minimized by `calculate_offer_curves` at abscissa `xb`:
`abs(calculate_mrs(fa, xb, y) - calculate_mrs(fb, total_x - xb, total_y - y))`. -/
def offerDiffAt (fa fb : ℚ → ℚ → ℚ) (tx ty xb y : ℚ) : Option ℚ :=
  mrsDiff (calculate_mrs fa xb y mrsEps) (calculate_mrs fb (tx - xb) (ty - y) mrsEps)

/-- Embedding of the grid-scan pattern `for c in cands: if f(c) < best: update`
with `best_y = None`, `best_diff = inf` initially; returns the final
`(best_y, best_diff)` pair. -/
def scanBest (f : ℚ → Option ℚ) (cands : List ℚ) : Option ℚ × Option ℚ :=
  cands.foldl (fun acc y =>
    let d := f y
    if optLt d acc.2 then (some y, d) else acc) (none, none)

/-- Generic embedding of a fueled `while again(s): s = pass(s)` loop; with
enough fuel it computes exactly the source loop (theorem C10 shows the loop
stabilizes, so the fuel is not a semantic restriction). -/
def fueledLoop (pass : α → α) (again : α → Bool) : ℕ → α → α
  | 0, s => s
  | n+1, s => if again s then fueledLoop pass again n (pass s) else s

/-- One iteration of the `while dy > 1e-6 * total_y` body in
`calculate_offer_curves`: try `best_y - dy` and `best_y + dy` (both taken from
the `best_y` current at loop entry, as the Python list `[best_y - dy,
best_y + dy]` is built once), update on improvement, and halve `dy` when
neither candidate improved.  State is `(best_y, best_diff, dy)`. -/
def offerPass (diffAt : ℚ → Option ℚ) (lo hi : ℚ) (s : ℚ × Option ℚ × ℚ) :
    ℚ × Option ℚ × ℚ :=
  let r := [s.1 - s.2.2, s.1 + s.2.2].foldl (fun (a : ℚ × Option ℚ × Bool) yn =>
    if lo < yn ∧ yn < hi then
      let d := diffAt yn
      if optLt d a.2.1 then (yn, d, true) else a
    else a) (s.1, s.2.1, false)
  if r.2.2 then (r.1, r.2.1, s.2.2) else (r.1, r.2.1, s.2.2 / 2)

/-- The `while dy > tol` refinement loop of `calculate_offer_curves`. -/
def offerRefine (diffAt : ℚ → Option ℚ) (lo hi tol : ℚ) :
    ℕ → ℚ × Option ℚ × ℚ → ℚ × Option ℚ × ℚ :=
  fueledLoop (offerPass diffAt lo hi) (fun s => decide (s.2.2 > tol))

/-- One `t`-slice of `calculate_offer_curves`: coarse scan of 50 `y` values
over `[0.05*total_y, 0.95*total_y]`, coordinate-descent refinement starting at
`dy = 0.1*total_y` within `(0.01*total_y, 0.99*total_y)`, and acceptance of
the refined point only when `best_diff < 0.1`; `none` models a dropped
slice. -/
def offerSlice (fa fb : ℚ → ℚ → ℚ) (tx ty : ℚ) (fuel : ℕ) (t : ℚ) :
    Option (ℚ × ℚ) :=
  let x_base := tx * t
  let y_values := linspace (ty/20) (19*ty/20) 50
  let da := offerDiffAt fa fb tx ty x_base
  let g := scanBest da y_values
  match g.1 with
  | none => none
  | some y0 =>
    if optLt g.2 (some 1) then
      let s := offerRefine da (ty/100) (99*ty/100) (ty/1000000) fuel (y0, g.2, ty/10)
      if optLt s.2.1 (some (1/10)) then some (x_base, s.1) else none
    else none

/-- Accepted contract-curve points of `calculate_offer_curves` in sweep order;
the source appends `x_base` to `x_points` and `best_y` to `y_points` for each
accepted slice, which is the `filterMap` of `offerSlice` over the `t` grid. -/
def offerPoints (fa fb : ℚ → ℚ → ℚ) (tx ty : ℚ) (num_points fuel : ℕ) :
    List (ℚ × ℚ) :=
  (linspace (1/20) (19/20) num_points).filterMap (offerSlice fa fb tx ty fuel)

/-- The raw `(x_points, y_points)` pair of `calculate_offer_curves` before
smoothing. -/
def offer_curves_raw (fa fb : ℚ → ℚ → ℚ) (tx ty : ℚ) (num_points fuel : ℕ) :
    List ℚ × List ℚ :=
  ((offerPoints fa fb tx ty num_points fuel).map Prod.fst,
   (offerPoints fa fb tx ty num_points fuel).map Prod.snd)

/-- Embedding of `np.convolve(ys, np.ones(w)/w, mode='valid')` for the
moving-average kernel: entry `i` is the mean of `ys[i:i+w]`. -/
def movingAverage (w : ℕ) (ys : List ℚ) : List ℚ :=
  (List.range (ys.length + 1 - w)).map (fun i => ((ys.drop i).take w).sum / w)

/-- Embedding of `calculate_offer_curves`.  The four endowment arguments are
in the source signature but never read by the body.  When more than 5 points
were accepted, the `y` sequence is smoothed with a window-5 moving average and
the `x` sequence is aligned by `x_points[window-1:][:len(y_smooth)]`. -/
def calculate_offer_curves (fa fb : ℚ → ℚ → ℚ)
    (tx ty endow_ax endow_ay endow_bx endow_by : ℚ) (num_points fuel : ℕ) :
    List ℚ × List ℚ :=
  let raw := offer_curves_raw fa fb tx ty num_points fuel
  if raw.1.length > 5 then
    let y_smooth := movingAverage 5 raw.2
    let x_smooth := (raw.1.drop 4).take y_smooth.length
    (x_smooth, y_smooth)
  else raw

/-- The joint deviation `abs(mrs_a - price_ratio) + abs(mrs_b - price_ratio)`
minimized by `find_walrasian_equilibrium` at allocation `(x, y)`; `none` when
either MRS is infinite (the float sum is then `inf` or NaN and never passes an
`excess < best_excess` test). -/
def excessAt (fa fb : ℚ → ℚ → ℚ) (tx ty p x y : ℚ) : Option ℚ :=
  match calculate_mrs fa x y mrsEps, calculate_mrs fb (tx - x) (ty - y) mrsEps with
  | some a, some b => some (|a - p| + |b - p|)
  | _, _ => none

/-- The inner-scan objective of `demand_excess` and of the final `y` search:
candidates outside the open band `(0.1, total_y - 0.1)` are skipped by the
source's `if` guard, which is the same as giving them a never-improving
(`none`) objective value under `optLt`. -/
def excessObjective (fa fb : ℚ → ℚ → ℚ) (tx ty p x : ℚ) (y : ℚ) : Option ℚ :=
  if 1/10 < y ∧ y < ty - 1/10 then excessAt fa fb tx ty p x y else none

/-- Embedding of the nested `demand_excess(x)` function: `inf` (`none`)
outside `(0.1, total_x - 0.1)`, otherwise the best joint deviation over the 20
sampled `y` values `total_y * t`, `t ∈ linspace(0.1, 0.9, 20)`; `inf` again
when no `y` was retained. -/
def demand_excess (fa fb : ℚ → ℚ → ℚ) (tx ty p x : ℚ) : Option ℚ :=
  if x ≤ 1/10 ∨ x ≥ tx - 1/10 then none
  else
    let scan := scanBest (excessObjective fa fb tx ty p x)
      ((linspace (1/10) (9/10) 20).map (fun t => ty * t))
    match scan.1 with
    | some _ => scan.2
    | none => none

/-- One iteration of the `while step > 1e-4` body in
`find_walrasian_equilibrium`: move to `x - step` or else `x + step` as soon as
one is inside the open box and strictly decreases `demand_excess` (the source
`break`s on the first improvement), otherwise halve the step. -/
def walrasPass (F : ℚ → Option ℚ) (lo hi : ℚ) (s : ℚ × ℚ) : ℚ × ℚ :=
  if (lo < s.1 - s.2 ∧ s.1 - s.2 < hi) ∧ optLt (F (s.1 - s.2)) (F s.1) then (s.1 - s.2, s.2)
  else if (lo < s.1 + s.2 ∧ s.1 + s.2 < hi) ∧ optLt (F (s.1 + s.2)) (F s.1) then (s.1 + s.2, s.2)
  else (s.1, s.2 / 2)

/-- The `while step > 1e-4` local-optimization loop on `x_current`. -/
def walrasDescend (F : ℚ → Option ℚ) (lo hi : ℚ) : ℕ → ℚ × ℚ → ℚ × ℚ :=
  fueledLoop (walrasPass F lo hi) (fun s => decide (s.2 > 1/10000))

/-- Processing of one initial candidate `x_init` for a given price ratio:
descend on `demand_excess` from `(x_init, step = 0.1)`, then re-scan 50 `y`
values at the final `x_current` and accept `(x_current, best_y)` only when
`best_y` was set and `best_excess < 1.0`. -/
def walrasCandidate (fa fb : ℚ → ℚ → ℚ) (tx ty p : ℚ) (fuel : ℕ) (x_init : ℚ) :
    Option (ℚ × ℚ) :=
  let F := demand_excess fa fb tx ty p
  let xc := (walrasDescend F (1/10) (tx - 1/10) fuel (x_init, 1/10)).1
  let scan := scanBest (excessObjective fa fb tx ty p xc)
    ((linspace (1/10) (9/10) 50).map (fun t => ty * t))
  match scan.1 with
  | some y => if optLt scan.2 (some 1) then some (xc, y) else none
  | none => none

/-- Equilibrium points contributed by one price ratio: the 30-point `x` grid
is keyed by `demand_excess`, sorted ascending by key (`list.sort` is stable,
as is Lean's `mergeSort`), and the best 3 candidates with key `< 1.0` are
refined; the source's conditional appends are the `filterMap`. -/
def pointsForPrice (fa fb : ℚ → ℚ → ℚ) (tx ty : ℚ) (fuel : ℕ) (p : ℚ) :
    List (ℚ × ℚ) :=
  let F := demand_excess fa fb tx ty p
  let x_grid := linspace (1/10) (tx - 1/10) 30
  let cands := (x_grid.map (fun x => (x, F x))).mergeSort (fun a b => optLe a.2 b.2)
  (cands.take 3).filterMap (fun c =>
    if optLt c.2 (some 1) then walrasCandidate fa fb tx ty p fuel c.1 else none)

/-- The `# Remove nearby points` pass: keep a point only when no
already-kept point is within Euclidean distance 1.0.  The source compares
`np.sqrt(dx**2 + dy**2) < 1.0`, which for nonnegative radicands is equivalent
to the square-root-free `dx**2 + dy**2 < 1` used here. -/
def dedupPoints (pts : List (ℚ × ℚ)) : List (ℚ × ℚ) :=
  pts.foldl (fun acc p1 =>
    if acc.any (fun p2 => decide ((p1.1 - p2.1)^2 + (p1.2 - p2.2)^2 < 1)) then acc
    else acc ++ [p1]) []

/-- Embedding of `find_walrasian_equilibrium`.  The source's price grid
`np.exp(np.linspace(-5, 5, num_prices))` is transcendental, hence not a
rational constant; the solver is embedded over its list of price ratios as a
parameter, which the source iterates in order, concatenating each price's
accepted points. -/
def find_walrasian_equilibrium (fa fb : ℚ → ℚ → ℚ) (tx ty : ℚ)
    (price_ratios : List ℚ) (fuel : ℕ) : List (ℚ × ℚ) :=
  dedupPoints (price_ratios.foldl (fun acc p => acc ++ pointsForPrice fa fb tx ty fuel p) [])

/-- The `while high - low > 1e-6` bisection of `calculate_indifference_curves`
at abscissa `xi` for utility level `u`, starting from bracket
`(0.1, max_y)`; returns the final `(low, high)` bracket (the source keeps
`low`). -/
def bisectY (f : ℚ → ℚ → ℚ) (xi u : ℚ) : ℕ → ℚ → ℚ → ℚ × ℚ
  | 0, low, high => (low, high)
  | n+1, low, high =>
    if high - low > 1/1000000 then
      let mid := (low + high) / 2
      if f xi mid < u then bisectY f xi u n mid high else bisectY f xi u n low mid
    else (low, high)

/-- The utility levels `np.linspace(f(max_x/4, max_y/4), f(3*max_x/4,
3*max_y/4), num_curves)` of `calculate_indifference_curves`. -/
def indifferenceLevels (f : ℚ → ℚ → ℚ) (max_x max_y : ℚ) (num_curves : ℕ) : List ℚ :=
  linspace (f (max_x/4) (max_y/4)) (f (max_x*3/4) (max_y*3/4)) num_curves

/-- Embedding of `calculate_indifference_curves`: for each of the
`num_curves` levels, bisect in `y` at each of the 100 `x` samples in
`[0.1, max_x]` and record the final `low`. -/
def calculate_indifference_curves (f : ℚ → ℚ → ℚ) (max_x max_y : ℚ)
    (num_curves fuel : ℕ) : List (List ℚ × List ℚ) :=
  let x := linspace (1/10) max_x 100
  (indifferenceLevels f max_x max_y num_curves).map
    (fun u => (x, x.map (fun xi => (bisectY f xi u fuel (1/10) max_y).1)))

/-- Embedding of `parse_utility_function`.  The `sympify` parser and the
`lambdify` code generator are the sympy library, external to the repository;
they are abstracted as parameters returning `Except` (an exception or a
value).  A produced callable may itself fail when called (sympy callables
raise e.g. `NameError` for symbols other than `x, y`), so callables have an
`Except` result.  The source wraps the two calls in one `try` and re-raises
any failure as `ValueError('Invalid utility function: ...')`; it never calls
the produced function before returning it. -/
def parse_utility_function (E : Type) (sympify : String → Except String E)
    (lambdify : E → Except String (ℚ → ℚ → Except String ℚ))
    (func_str : String) : Except String (ℚ → ℚ → Except String ℚ) :=
  match (sympify func_str).bind lambdify with
  | Except.ok f => Except.ok f
  | Except.error e => Except.error ("Invalid utility function: " ++ e)

/-- The Cobb-Douglas style utility `f(x, y) = x * y` used by the spec's MRS
test property. -/
def xyUtil : ℚ → ℚ → ℚ := fun x y => x * y

/-- A quasilinear utility `f(x, y) = y - x` whose MRS is the constant `1`;
used to exhibit a nonempty equilibrium run. -/
def linUtil : ℚ → ℚ → ℚ := fun x y => y - x

/-- The utility `f(x, y) = y`, monotone in `y`; used to instantiate the
indifference-curve bisection theorem. -/
def ylinUtil : ℚ → ℚ → ℚ := fun _ y => y

/-- The utility `f(x, y) = x`, constant in `y`: its `y` forward difference is
exactly zero, so `calculate_mrs` returns `+∞` (`none`). -/
def xonlyUtil : ℚ → ℚ → ℚ := fun x _ => x

theorem optLt_some_right {a : Option ℚ} {q : ℚ} (h : optLt a (some q) = true) :
    ∃ x, a = some x ∧ x < q := by
  cases a with
  | none => simp [optLt] at h
  | some x => exact ⟨x, rfl, by simpa [optLt] using h⟩

theorem optLt_trans {a b c : Option ℚ} (h1 : optLt a b = true) (h2 : optLt b c = true) :
    optLt a c = true := by
  cases a with
  | none => simp [optLt] at h1
  | some x =>
    cases c with
    | none => simp [optLt]
    | some z =>
      cases b with
      | none => simp [optLt] at h2
      | some y =>
        simp only [optLt, decide_eq_true_eq] at h1 h2 ⊢
        exact h1.trans h2

theorem optLt_irrefl (a : Option ℚ) : optLt a a = false := by
  cases a with
  | none => rfl
  | some x => simp [optLt]

/-- C3.  The claim asserts `calculate_mrs` at `(a, a)` for `f(x,y) = x*y` is
within `O(ε)` of `1.0`; already at `a = 1` the computed value is exactly `-1`
(the source negates the ratio of partials), so it is not within any tolerance
below `2` of `1.0`. -/
theorem C3_counterexample :
    ¬ (∃ r : ℚ, calculate_mrs xyUtil 1 1 mrsEps = some r ∧ |r - 1| ≤ 1/10) := by
  intro hcl
  obtain ⟨r, hr, hb⟩ := hcl
  have h1 : calculate_mrs xyUtil 1 1 mrsEps = some (-1) := by
    norm_num [calculate_mrs, xyUtil, mrsEps]
  rw [h1] at hr
  have : r = -1 := (Option.some.inj hr.symm)
  rw [this] at hb
  norm_num at hb

/-- C3 (amended).  For `f(x, y) = x*y` and any `a > 0`, `calculate_mrs` at
`(a, a)` with the default `ε = 1e-6` returns exactly `-1` (both forward
differences are exactly `a` for this bilinear `f`, and the source returns the
negated ratio `-dx/dy`). -/
theorem C3_mrs_equal_coordinates (a : ℚ) (h : 0 < a) :
    calculate_mrs xyUtil a a mrsEps = some (-1) := by
  have ha : a ≠ 0 := ne_of_gt h
  have hdx : (xyUtil (a + mrsEps) a - xyUtil a a) / mrsEps = a := by
    norm_num [xyUtil, mrsEps]
    ring
  have hdy : (xyUtil a (a + mrsEps) - xyUtil a a) / mrsEps = a := by
    norm_num [xyUtil, mrsEps]
    ring
  simp only [calculate_mrs, hdx, hdy]
  rw [if_pos ha]
  rw [neg_div, div_self ha]

/-- C3 witness: the amended theorem applied at `a = 2`. -/
theorem C3_witness : calculate_mrs xyUtil 2 2 mrsEps = some (-1) :=
  C3_mrs_equal_coordinates 2 (by norm_num)

/-- C4.  `calculate_mrs` returns exactly
`-( (f(x+ε,y)-f(x,y))/ε ) / ( (f(x,y+ε)-f(x,y))/ε )` whenever the `y` forward
difference quotient is nonzero, and `+∞` (modelled `none`) when that quotient
is exactly zero, without any other failure mode. -/
theorem C4_mrs_formula (f : ℚ → ℚ → ℚ) (x y eps : ℚ) :
    ((f x (y + eps) - f x y) / eps ≠ 0 →
      calculate_mrs f x y eps =
        some (-((f (x + eps) y - f x y) / eps) / ((f x (y + eps) - f x y) / eps))) ∧
    ((f x (y + eps) - f x y) / eps = 0 → calculate_mrs f x y eps = none) := by
  constructor
  · intro h
    simp only [calculate_mrs]
    rw [if_pos h]
  · intro h
    simp only [calculate_mrs]
    rw [if_neg (not_not_intro h)]

/-- C4 witness: both branches at concrete inputs — the finite branch for
`f(x,y) = x*y` at `(1,2)` and the `+∞` branch for `f(x,y) = x` (whose `y`
forward difference is exactly zero). -/
theorem C4_witness :
    calculate_mrs xyUtil 1 2 mrsEps = some (-2) ∧
    calculate_mrs xonlyUtil 1 2 mrsEps = none := by
  constructor
  · have h := (C4_mrs_formula xyUtil 1 2 mrsEps).1 (by norm_num [xyUtil, mrsEps])
    rw [h]
    norm_num [xyUtil, mrsEps]
  · exact (C4_mrs_formula xonlyUtil 1 2 mrsEps).2 (by norm_num [xonlyUtil])

/-- C9.  `calculate_offer_curves` never reads its four endowment arguments:
two calls agreeing on everything else return identical curves. -/
theorem C9_offer_curves_ignore_endowments (fa fb : ℚ → ℚ → ℚ)
    (tx ty eax eay ebx eby gax gay gbx gby : ℚ) (np fuel : ℕ) :
    calculate_offer_curves fa fb tx ty eax eay ebx eby np fuel =
      calculate_offer_curves fa fb tx ty gax gay gbx gby np fuel := rfl

theorem sqDist_comm (a b : ℚ × ℚ) :
    (a.1 - b.1)^2 + (a.2 - b.2)^2 = (b.1 - a.1)^2 + (b.2 - a.2)^2 := by ring

theorem dedupPoints_foldl_pairwise (pts : List (ℚ × ℚ)) :
    ∀ acc : List (ℚ × ℚ),
      acc.Pairwise (fun p q => 1 ≤ (p.1 - q.1)^2 + (p.2 - q.2)^2) →
      (pts.foldl (fun acc p1 =>
          if acc.any (fun p2 => decide ((p1.1 - p2.1)^2 + (p1.2 - p2.2)^2 < 1)) then acc
          else acc ++ [p1]) acc).Pairwise
        (fun p q => 1 ≤ (p.1 - q.1)^2 + (p.2 - q.2)^2) := by
  induction pts with
  | nil => intro acc hacc; exact hacc
  | cons p ps ih =>
    intro acc hacc
    simp only [List.foldl_cons]
    by_cases hc : acc.any (fun p2 => decide ((p.1 - p2.1)^2 + (p.2 - p2.2)^2 < 1)) = true
    · rw [if_pos hc]; exact ih acc hacc
    · rw [if_neg hc]
      refine ih (acc ++ [p]) ?_
      rw [List.pairwise_append]
      refine ⟨hacc, List.pairwise_singleton _ _, ?_⟩
      intro a ha b hb
      rw [List.mem_singleton] at hb
      subst hb
      have hc2 : ∀ p2 ∈ acc, ¬((b.1 - p2.1)^2 + (b.2 - p2.2)^2 < 1) := by
        intro p2 hp2 hlt
        exact hc (List.any_eq_true.mpr ⟨p2, hp2, decide_eq_true hlt⟩)
      rw [sqDist_comm]
      exact le_of_not_lt (hc2 a ha)

/-- C6.  Any two distinct points reported by `find_walrasian_equilibrium` are
at Euclidean distance at least `1.0`: the list is pairwise separated, with
squared distance at least `1` (for nonnegative radicands,
`sqrt(d) ≥ 1 ↔ d ≥ 1`, matching the source's `np.sqrt(...) < 1.0` filter). -/
theorem C6_equilibria_pairwise_separated (fa fb : ℚ → ℚ → ℚ) (tx ty : ℚ)
    (prices : List ℚ) (fuel : ℕ) :
    (find_walrasian_equilibrium fa fb tx ty prices fuel).Pairwise
      (fun p q => 1 ≤ (p.1 - q.1)^2 + (p.2 - q.2)^2) := by
  unfold find_walrasian_equilibrium dedupPoints
  exact dedupPoints_foldl_pairwise _ [] List.Pairwise.nil

theorem scanStep_inv (f : ℚ → Option ℚ) (l0 : List ℚ) (acc : Option ℚ × Option ℚ) (c : ℚ)
    (hacc : ∀ y, acc.1 = some y → acc.2 = f y ∧ y ∈ l0) (hc : c ∈ l0) :
    ∀ y, ((if optLt (f c) acc.2 then (some c, f c) else acc) : Option ℚ × Option ℚ).1 = some y →
      ((if optLt (f c) acc.2 then (some c, f c) else acc) : Option ℚ × Option ℚ).2 = f y ∧ y ∈ l0 := by
  intro y hy
  split_ifs at hy ⊢ with h
  · cases Option.some.inj hy
    exact ⟨rfl, hc⟩
  · exact hacc y hy

theorem scanBest_foldl_spec (f : ℚ → Option ℚ) (l0 : List ℚ) :
    ∀ (cands : List ℚ) (acc : Option ℚ × Option ℚ),
      (∀ y, acc.1 = some y → acc.2 = f y ∧ y ∈ l0) →
      (∀ c ∈ cands, c ∈ l0) →
      ∀ y, (cands.foldl (fun acc y =>
              let d := f y
              if optLt d acc.2 then (some y, d) else acc) acc).1 = some y →
        (cands.foldl (fun acc y =>
              let d := f y
              if optLt d acc.2 then (some y, d) else acc) acc).2 = f y ∧ y ∈ l0 := by
  intro cands
  induction cands with
  | nil => intro acc hacc _ y hy; exact hacc y hy
  | cons c cs ih =>
    intro acc hacc hsub y hy
    simp only [List.foldl_cons] at hy ⊢
    exact ih _ (scanStep_inv f l0 acc c hacc (hsub c (List.mem_cons_self c cs)))
      (fun d hd => hsub d (List.mem_cons_of_mem c hd)) y hy

theorem scanBest_spec (f : ℚ → Option ℚ) (cands : List ℚ) (y : ℚ)
    (h : (scanBest f cands).1 = some y) :
    (scanBest f cands).2 = f y ∧ y ∈ cands := by
  unfold scanBest at h ⊢
  exact scanBest_foldl_spec f cands cands (none, none)
    (fun z hz => absurd hz (by simp)) (fun c hc => hc) y h

theorem mem_foldl_append {α β : Type} (g : α → List β) (l : List α) :
    ∀ (acc : List β) (x : β), x ∈ l.foldl (fun acc a => acc ++ g a) acc →
      x ∈ acc ∨ ∃ a ∈ l, x ∈ g a := by
  induction l with
  | nil => intro acc x hx; exact Or.inl hx
  | cons a as ih =>
    intro acc x hx
    simp only [List.foldl_cons] at hx
    rcases ih (acc ++ g a) x hx with h | ⟨b, hb, hbg⟩
    · rcases List.mem_append.mp h with h | h
      · exact Or.inl h
      · exact Or.inr ⟨a, List.mem_cons_self a as, h⟩
    · exact Or.inr ⟨b, List.mem_cons_of_mem a hb, hbg⟩

theorem mem_dedupPoints {pts : List (ℚ × ℚ)} {pt : ℚ × ℚ}
    (h : pt ∈ dedupPoints pts) : pt ∈ pts := by
  unfold dedupPoints at h
  suffices haux : ∀ acc : List (ℚ × ℚ), pt ∈ pts.foldl (fun acc p1 =>
      if acc.any (fun p2 => decide ((p1.1 - p2.1)^2 + (p1.2 - p2.2)^2 < 1)) then acc
      else acc ++ [p1]) acc → pt ∈ acc ∨ pt ∈ pts by
    rcases haux [] h with h2 | h2
    · exact absurd h2 (by simp)
    · exact h2
  clear h
  induction pts with
  | nil => intro acc hx; exact Or.inl hx
  | cons p ps ih =>
    intro acc hx
    simp only [List.foldl_cons] at hx
    have hsplit : pt ∈ (if acc.any (fun p2 =>
        decide ((p.1 - p2.1)^2 + (p.2 - p2.2)^2 < 1)) then acc else acc ++ [p]) ∨ pt ∈ ps := by
      rcases ih _ hx with h2 | h2
      · exact Or.inl h2
      · exact Or.inr h2
    rcases hsplit with h2 | h2
    · by_cases hc : acc.any (fun p2 => decide ((p.1 - p2.1)^2 + (p.2 - p2.2)^2 < 1)) = true
      · rw [if_pos hc] at h2
        exact Or.inl h2
      · rw [if_neg hc] at h2
        rcases List.mem_append.mp h2 with h3 | h3
        · exact Or.inl h3
        · exact Or.inr (by simp at h3; simp [h3])
    · exact Or.inr (List.mem_cons_of_mem p h2)

theorem excessObjective_some {fa fb : ℚ → ℚ → ℚ} {tx ty p x y e : ℚ}
    (h : excessObjective fa fb tx ty p x y = some e) :
    excessAt fa fb tx ty p x y = some e := by
  unfold excessObjective at h
  split_ifs at h
  exact h

theorem excessAt_some {fa fb : ℚ → ℚ → ℚ} {tx ty p x y e : ℚ}
    (h : excessAt fa fb tx ty p x y = some e) :
    ∃ a b : ℚ, calculate_mrs fa x y mrsEps = some a ∧
      calculate_mrs fb (tx - x) (ty - y) mrsEps = some b ∧ e = |a - p| + |b - p| := by
  unfold excessAt at h
  rcases ha : calculate_mrs fa x y mrsEps with _ | a <;>
    rcases hb : calculate_mrs fb (tx - x) (ty - y) mrsEps with _ | b <;>
      rw [ha, hb] at h <;> simp at h
  exact ⟨a, b, rfl, rfl, h.symm⟩

theorem walrasCandidate_spec (fa fb : ℚ → ℚ → ℚ) (tx ty p : ℚ) (fuel : ℕ) (xi : ℚ)
    (pt : ℚ × ℚ) (h : walrasCandidate fa fb tx ty p fuel xi = some pt) :
    ∃ e : ℚ, excessAt fa fb tx ty p pt.1 pt.2 = some e ∧ e < 1 := by
  simp only [walrasCandidate] at h
  rcases hy : (scanBest (excessObjective fa fb tx ty p
      ((walrasDescend (demand_excess fa fb tx ty p) (1/10) (tx - 1/10) fuel (xi, 1/10)).1))
      ((linspace (1/10) (9/10) 50).map (fun t => ty * t))).1 with _ | y
  · rw [hy] at h
    simp at h
  · rw [hy] at h
    simp only [] at h
    split_ifs at h with hlt
    · have hpt := Option.some.inj h
      obtain ⟨hval, _⟩ := scanBest_spec _ _ y hy
      rw [hval] at hlt
      obtain ⟨e, he, helt⟩ := optLt_some_right hlt
      refine ⟨e, ?_, helt⟩
      rw [← hpt]
      exact excessObjective_some he

/-- C2.  Every point returned by `find_walrasian_equilibrium` was accepted for
some price ratio `p` of the sampled grid with joint deviation
`abs(mrs_a - p) + abs(mrs_b - p) < 1.0`, hence each single deviation is below
the solver's acceptance tolerance `1.0` (and both MRS values are finite). -/
theorem C2_equilibrium_mrs_near_price (fa fb : ℚ → ℚ → ℚ) (tx ty : ℚ)
    (prices : List ℚ) (fuel : ℕ) (pt : ℚ × ℚ)
    (hmem : pt ∈ find_walrasian_equilibrium fa fb tx ty prices fuel) :
    ∃ p ∈ prices, ∃ a b : ℚ,
      calculate_mrs fa pt.1 pt.2 mrsEps = some a ∧
      calculate_mrs fb (tx - pt.1) (ty - pt.2) mrsEps = some b ∧
      |a - p| < 1 ∧ |b - p| < 1 := by
  unfold find_walrasian_equilibrium at hmem
  have h1 := mem_dedupPoints hmem
  rcases mem_foldl_append _ prices [] pt h1 with h2 | ⟨p, hp, hmem2⟩
  · exact absurd h2 (by simp)
  simp only [pointsForPrice] at hmem2
  obtain ⟨c, _, hcf⟩ := List.mem_filterMap.mp hmem2
  split_ifs at hcf
  obtain ⟨e, he, helt⟩ := walrasCandidate_spec fa fb tx ty p fuel c.1 pt hcf
  obtain ⟨a, b, hma, hmb, hesum⟩ := excessAt_some he
  refine ⟨p, hp, a, b, hma, hmb, ?_, ?_⟩
  · calc |a - p| ≤ |a - p| + |b - p| := le_add_of_nonneg_right (abs_nonneg _)
    _ = e := hesum.symm
    _ < 1 := helt
  · calc |b - p| ≤ |a - p| + |b - p| := le_add_of_nonneg_left (abs_nonneg _)
    _ = e := hesum.symm
    _ < 1 := helt

set_option maxRecDepth 40000

theorem zip_map_fst_snd {α β : Type} (l : List (α × β)) :
    (l.map Prod.fst).zip (l.map Prod.snd) = l := by
  induction l with
  | nil => rfl
  | cons p ps ih => simp [ih]

theorem mrsDiff_some {u v : Option ℚ} {d : ℚ} (h : mrsDiff u v = some d) :
    ∃ a b : ℚ, u = some a ∧ v = some b ∧ d = |a - b| := by
  rcases hu : u with _ | a <;> rcases hv : v with _ | b <;> rw [hu, hv] at h <;> simp [mrsDiff] at h
  exact ⟨a, b, rfl, rfl, h.symm⟩

theorem offerPass_cases (diffAt : ℚ → Option ℚ) (lo hi : ℚ) (s : ℚ × Option ℚ × ℚ)
    (hinv : s.2.1 = diffAt s.1) :
    offerPass diffAt lo hi s = (s.1, s.2.1, s.2.2 / 2) ∨
    ((offerPass diffAt lo hi s).2.2 = s.2.2 ∧
     ((offerPass diffAt lo hi s).1 = s.1 - s.2.2 ∨ (offerPass diffAt lo hi s).1 = s.1 + s.2.2) ∧
     lo < (offerPass diffAt lo hi s).1 ∧ (offerPass diffAt lo hi s).1 < hi ∧
     (offerPass diffAt lo hi s).2.1 = diffAt (offerPass diffAt lo hi s).1 ∧
     optLt (diffAt (offerPass diffAt lo hi s).1) (diffAt s.1) = true) := by
  simp only [offerPass, List.foldl_cons, List.foldl_nil]
  rw [← hinv]
  by_cases h1 : lo < s.1 - s.2.2 ∧ s.1 - s.2.2 < hi
  · rw [if_pos h1]
    by_cases h2 : optLt (diffAt (s.1 - s.2.2)) s.2.1 = true
    · rw [if_pos h2]
      by_cases h3 : lo < s.1 + s.2.2 ∧ s.1 + s.2.2 < hi
      · rw [if_pos h3]
        by_cases h4 : optLt (diffAt (s.1 + s.2.2)) (diffAt (s.1 - s.2.2)) = true
        · rw [if_pos h4]
          exact Or.inr ⟨rfl, Or.inr rfl, h3.1, h3.2, rfl, optLt_trans h4 h2⟩
        · rw [if_neg h4]
          exact Or.inr ⟨rfl, Or.inl rfl, h1.1, h1.2, rfl, h2⟩
      · rw [if_neg h3]
        exact Or.inr ⟨rfl, Or.inl rfl, h1.1, h1.2, rfl, h2⟩
    · rw [if_neg h2]
      by_cases h3 : lo < s.1 + s.2.2 ∧ s.1 + s.2.2 < hi
      · rw [if_pos h3]
        by_cases h4 : optLt (diffAt (s.1 + s.2.2)) s.2.1 = true
        · rw [if_pos h4]
          exact Or.inr ⟨rfl, Or.inr rfl, h3.1, h3.2, rfl, h4⟩
        · rw [if_neg h4]
          exact Or.inl rfl
      · rw [if_neg h3]
        exact Or.inl rfl
  · rw [if_neg h1]
    by_cases h3 : lo < s.1 + s.2.2 ∧ s.1 + s.2.2 < hi
    · rw [if_pos h3]
      by_cases h4 : optLt (diffAt (s.1 + s.2.2)) s.2.1 = true
      · rw [if_pos h4]
        exact Or.inr ⟨rfl, Or.inr rfl, h3.1, h3.2, rfl, h4⟩
      · rw [if_neg h4]
        exact Or.inl rfl
    · rw [if_neg h3]
      exact Or.inl rfl

theorem offerPass_inv (diffAt : ℚ → Option ℚ) (lo hi : ℚ) (s : ℚ × Option ℚ × ℚ)
    (hinv : s.2.1 = diffAt s.1) :
    (offerPass diffAt lo hi s).2.1 = diffAt (offerPass diffAt lo hi s).1 := by
  rcases offerPass_cases diffAt lo hi s hinv with h | h
  · rw [h]
    exact hinv
  · exact h.2.2.2.2.1

theorem offerRefine_inv (diffAt : ℚ → Option ℚ) (lo hi tol : ℚ) :
    ∀ (n : ℕ) (s : ℚ × Option ℚ × ℚ), s.2.1 = diffAt s.1 →
      (offerRefine diffAt lo hi tol n s).2.1 = diffAt (offerRefine diffAt lo hi tol n s).1 := by
  intro n
  induction n with
  | zero => intro s hs; exact hs
  | succ m ih =>
    intro s hs
    simp only [offerRefine, fueledLoop]
    split_ifs with hcond
    · exact ih (offerPass diffAt lo hi s) (offerPass_inv diffAt lo hi s hs)
    · exact hs

theorem offerSlice_spec (fa fb : ℚ → ℚ → ℚ) (tx ty : ℚ) (fuel : ℕ) (t : ℚ)
    (pt : ℚ × ℚ) (h : offerSlice fa fb tx ty fuel t = some pt) :
    ∃ d : ℚ, offerDiffAt fa fb tx ty pt.1 pt.2 = some d ∧ d < 1/10 := by
  simp only [offerSlice] at h
  rcases hy : (scanBest (offerDiffAt fa fb tx ty (tx * t)) (linspace (ty/20) (19*ty/20) 50)).1
    with _ | y0
  · rw [hy] at h
    simp at h
  · rw [hy] at h
    simp only [] at h
    split_ifs at h with hcoarse hfine
    · have hpt := Option.some.inj h
      obtain ⟨hval, _⟩ := scanBest_spec _ _ y0 hy
      have hinv := offerRefine_inv (offerDiffAt fa fb tx ty (tx * t)) (ty/100) (99*ty/100)
        (ty/1000000) fuel (y0, (scanBest (offerDiffAt fa fb tx ty (tx * t))
          (linspace (ty/20) (19*ty/20) 50)).2, ty/10) hval
      rw [hinv] at hfine
      obtain ⟨d, hd, hdlt⟩ := optLt_some_right hfine
      refine ⟨d, ?_, hdlt⟩
      rw [← hpt]
      exact hd

/-- C1 (amended).  Every accepted (pre-smoothing) contract-curve point
`(x, y)` of `calculate_offer_curves` has finite MRS values for both agents
with `|MRS_A(x,y) - MRS_B(total_x-x, total_y-y)| < 0.1` (`ε = 1e-6`).  When at
most 5 points are accepted these raw points are returned unchanged; the
moving-average smoothing applied when more than 5 points are accepted can
break the bound for the returned arrays (see the counterexample). -/
theorem C1_raw_points_mrs_gap (fa fb : ℚ → ℚ → ℚ) (tx ty : ℚ) (np fuel : ℕ)
    (pt : ℚ × ℚ)
    (hmem : pt ∈ ((offer_curves_raw fa fb tx ty np fuel).1.zip
      (offer_curves_raw fa fb tx ty np fuel).2)) :
    ∃ a b : ℚ, calculate_mrs fa pt.1 pt.2 mrsEps = some a ∧
      calculate_mrs fb (tx - pt.1) (ty - pt.2) mrsEps = some b ∧ |a - b| < 1/10 := by
  simp only [offer_curves_raw] at hmem
  rw [zip_map_fst_snd] at hmem
  obtain ⟨t, _, hslice⟩ := List.mem_filterMap.mp hmem
  obtain ⟨d, hd, hdlt⟩ := offerSlice_spec fa fb tx ty fuel t pt hslice
  obtain ⟨a, b, ha, hb, hab⟩ := mrsDiff_some hd
  exact ⟨a, b, ha, hb, hab ▸ hdlt⟩

theorem offerRaw1_eval : offer_curves_raw xyUtil xyUtil 10 10 1 0 = ([1/2], [1/2]) := by
  decide!

/-- C1 witness: the run with `num_points = 1` accepts the single point
`(0.5, 0.5)`; the amended theorem applies to it. -/
theorem C1_witness :
    ∃ a b : ℚ, calculate_mrs xyUtil (1/2) (1/2) mrsEps = some a ∧
      calculate_mrs xyUtil (10 - 1/2) (10 - 1/2) mrsEps = some b ∧ |a - b| < 1/10 :=
  C1_raw_points_mrs_gap xyUtil xyUtil 10 10 1 0 (1/2, 1/2) (by rw [offerRaw1_eval]; decide!)

theorem offerRaw6_eval : offer_curves_raw xyUtil xyUtil 10 10 6 0 =
    ([1/2, 23/10, 41/10, 59/10, 77/10, 19/2],
     [1/2, 229/98, 409/98, 571/98, 751/98, 19/2]) := by
  decide!

/-- C1.  The claim asserts every point in the *returned* arrays of
`calculate_offer_curves` meets the `0.1` MRS-gap tolerance.  For
`f_a = f_b = x*y`, totals `10`, `num_points = 6`, all six slices are accepted,
so the moving-average smoothing runs; the first returned point pairs
`x = 7.7` with the smoothed `y = 4.1`, where the MRS gap is
`3600/1771 ≈ 2.03 > 0.1`. -/
theorem C1_counterexample :
    ¬ (∀ pt ∈ ((calculate_offer_curves xyUtil xyUtil 10 10 0 0 0 0 6 0).1.zip
          (calculate_offer_curves xyUtil xyUtil 10 10 0 0 0 0 6 0).2),
        ∃ a b : ℚ, calculate_mrs xyUtil pt.1 pt.2 mrsEps = some a ∧
          calculate_mrs xyUtil (10 - pt.1) (10 - pt.2) mrsEps = some b ∧
          |a - b| ≤ 1/10) := by
  intro hcl
  have hres : calculate_offer_curves xyUtil xyUtil 10 10 0 0 0 0 6 0 =
      ([77/10, 19/2], [41/10, 59/10]) := by
    simp only [calculate_offer_curves, offerRaw6_eval]
    decide!
  have hmem : ((77:ℚ)/10, (41:ℚ)/10) ∈
      ((calculate_offer_curves xyUtil xyUtil 10 10 0 0 0 0 6 0).1.zip
        (calculate_offer_curves xyUtil xyUtil 10 10 0 0 0 0 6 0).2) := by
    rw [hres]
    decide!
  obtain ⟨a, b, ha, hb, hab⟩ := hcl _ hmem
  have ha2 : calculate_mrs xyUtil ((77:ℚ)/10) ((41:ℚ)/10) mrsEps = some (-41/77) := by
    norm_num [calculate_mrs, xyUtil, mrsEps]
  have hb2 : calculate_mrs xyUtil (10 - (77:ℚ)/10) (10 - (41:ℚ)/10) mrsEps =
      some (-59/23) := by
    norm_num [calculate_mrs, xyUtil, mrsEps]
  rw [ha2] at ha
  rw [hb2] at hb
  have haa : a = -41/77 := Option.some.inj ha.symm
  have hbb : b = -59/23 := Option.some.inj hb.symm
  rw [haa, hbb] at hab
  rw [show (-41:ℚ)/77 - -59/23 = 3600/1771 by norm_num] at hab
  rw [abs_of_nonneg (by norm_num : (0:ℚ) ≤ 3600/1771)] at hab
  norm_num at hab

/-- C8 (amended).  `calculate_offer_curves` returns the raw accepted lists
exactly when at most `window = 5` points are accepted (the source tests
`len(x_points) > 5`, so a run with exactly 5 accepted points is returned
unsmoothed); otherwise it returns the window-5 moving average of the `y`
sequence paired with `x_points[window-1:]` trimmed to the same length, and in
all cases the two returned arrays have equal length. -/
theorem C8_smoothing_behavior (fa fb : ℚ → ℚ → ℚ) (tx ty eax eay ebx eby : ℚ)
    (np fuel : ℕ) :
    ((offer_curves_raw fa fb tx ty np fuel).1.length ≤ 5 →
      calculate_offer_curves fa fb tx ty eax eay ebx eby np fuel =
        offer_curves_raw fa fb tx ty np fuel) ∧
    (5 < (offer_curves_raw fa fb tx ty np fuel).1.length →
      calculate_offer_curves fa fb tx ty eax eay ebx eby np fuel =
        (((offer_curves_raw fa fb tx ty np fuel).1.drop 4).take
            (movingAverage 5 (offer_curves_raw fa fb tx ty np fuel).2).length,
          movingAverage 5 (offer_curves_raw fa fb tx ty np fuel).2)) ∧
    (calculate_offer_curves fa fb tx ty eax eay ebx eby np fuel).1.length =
      (calculate_offer_curves fa fb tx ty eax eay ebx eby np fuel).2.length := by
  refine ⟨?_, ?_, ?_⟩
  · intro hle
    simp only [calculate_offer_curves]
    rw [if_neg (by omega)]
  · intro hgt
    simp only [calculate_offer_curves]
    rw [if_pos (by omega)]
  · simp only [calculate_offer_curves]
    by_cases hc : (offer_curves_raw fa fb tx ty np fuel).1.length > 5
    · rw [if_pos hc]
      simp only [List.length_take, List.length_drop, movingAverage, List.length_map,
        List.length_range, offer_curves_raw] at hc ⊢
      omega
    · rw [if_neg hc]
      simp only [offer_curves_raw, List.length_map]

/-- C8.  The claim places the raw-return threshold at `fewer than 5` accepted
points.  For `f_a = f_b = x*y`, totals `10`, `num_points = 5`, exactly 5
points are accepted, and the source returns them raw (its test is
`len(x_points) > 5`), while the claim predicts the smoothed output, which
would have a single point. -/
theorem offerRaw5_eval : offer_curves_raw xyUtil xyUtil 10 10 5 0 =
    ([1/2, 11/4, 5, 29/4, 19/2],
     [1/2, 265/98, 481/98, 715/98, 19/2]) := by
  decide!

theorem C8_counterexample :
    ¬ (((offer_curves_raw xyUtil xyUtil 10 10 5 0).1.length < 5 →
          calculate_offer_curves xyUtil xyUtil 10 10 0 0 0 0 5 0 =
            offer_curves_raw xyUtil xyUtil 10 10 5 0) ∧
       (5 ≤ (offer_curves_raw xyUtil xyUtil 10 10 5 0).1.length →
          calculate_offer_curves xyUtil xyUtil 10 10 0 0 0 0 5 0 =
            (((offer_curves_raw xyUtil xyUtil 10 10 5 0).1.drop 4).take
                (movingAverage 5 (offer_curves_raw xyUtil xyUtil 10 10 5 0).2).length,
              movingAverage 5 (offer_curves_raw xyUtil xyUtil 10 10 5 0).2))) := by
  intro hcl
  have hlen : (offer_curves_raw xyUtil xyUtil 10 10 5 0).1.length = 5 := by
    rw [offerRaw5_eval]
    rfl
  have h2 := hcl.2 (by rw [hlen])
  have hres : (calculate_offer_curves xyUtil xyUtil 10 10 0 0 0 0 5 0).2.length = 5 := by
    simp only [calculate_offer_curves, offerRaw5_eval]
    decide!
  rw [h2] at hres
  have hone : (movingAverage 5 (offer_curves_raw xyUtil xyUtil 10 10 5 0).2).length = 1 := by
    rw [offerRaw5_eval]
    decide!
  simp only [] at hres
  rw [hone] at hres
  exact absurd hres (by norm_num)

/-- C2 witness: for `f_a = f_b = y - x` (constant MRS `1`), total endowments
`10`, the single price ratio `1`, the solver returns the point
`(127/290, 1)`; the theorem applies to it. -/
theorem walrasRun_eval :
    find_walrasian_equilibrium linUtil linUtil 10 10 [1] 0 = [(127/290, 1)] := by
  decide!

theorem C2_witness :
    ∃ p ∈ [(1:ℚ)], ∃ a b : ℚ,
      calculate_mrs linUtil ((127:ℚ)/290) 1 mrsEps = some a ∧
      calculate_mrs linUtil (10 - (127:ℚ)/290) (10 - 1) mrsEps = some b ∧
      |a - p| < 1 ∧ |b - p| < 1 :=
  C2_equilibrium_mrs_near_price linUtil linUtil 10 10 [1] 0 ((127:ℚ)/290, 1)
    (by rw [walrasRun_eval]; decide!)

/-- C8 witness: the run with exactly 5 accepted points is returned raw, by the
first part of the amended theorem. -/
theorem C8_witness :
    calculate_offer_curves xyUtil xyUtil 10 10 0 0 0 0 5 0 =
      offer_curves_raw xyUtil xyUtil 10 10 5 0 :=
  (C8_smoothing_behavior xyUtil xyUtil 10 10 0 0 0 0 5 0).1
    (by rw [offerRaw5_eval]; norm_num)

theorem bisectY_le (f : ℚ → ℚ → ℚ) (xi u : ℚ) :
    ∀ (n : ℕ) (low high : ℚ), low ≤ high →
      low ≤ (bisectY f xi u n low high).1 ∧
      (bisectY f xi u n low high).1 ≤ (bisectY f xi u n low high).2 ∧
      (bisectY f xi u n low high).2 ≤ high := by
  intro n
  induction n with
  | zero => intro low high h; exact ⟨le_refl _, h, le_refl _⟩
  | succ m ih =>
    intro low high h
    simp only [bisectY]
    split_ifs with hw hm
    · obtain ⟨h1, h2, h3⟩ := ih ((low + high)/2) high (by linarith)
      exact ⟨le_trans (by linarith) h1, h2, h3⟩
    · obtain ⟨h1, h2, h3⟩ := ih low ((low + high)/2) (by linarith)
      exact ⟨h1, h2, le_trans h3 (by linarith)⟩
    · exact ⟨le_refl _, h, le_refl _⟩

theorem bisectY_width (f : ℚ → ℚ → ℚ) (xi u : ℚ) :
    ∀ (n : ℕ) (low high : ℚ),
      (bisectY f xi u n low high).2 - (bisectY f xi u n low high).1 ≤
        max (1/1000000) ((high - low) / 2^n) := by
  intro n
  induction n with
  | zero =>
    intro low high
    simp only [bisectY, pow_zero]
    exact le_max_of_le_right (le_of_eq (by ring))
  | succ m ih =>
    intro low high
    simp only [bisectY]
    split_ifs with hw hm
    · refine le_trans (ih ((low + high)/2) high) (max_le_max (le_refl _) ?_)
      have he : high - (low + high)/2 = (high - low)/2 := by ring
      rw [he, div_div, show ((2:ℚ) * 2^m) = 2^(m+1) from (pow_succ' 2 m).symm]
    · refine le_trans (ih low ((low + high)/2)) (max_le_max (le_refl _) ?_)
      have he : (low + high)/2 - low = (high - low)/2 := by ring
      rw [he, div_div, show ((2:ℚ) * 2^m) = 2^(m+1) from (pow_succ' 2 m).symm]
    · exact le_max_of_le_left (le_of_not_lt hw)

theorem bisectY_inv (f : ℚ → ℚ → ℚ) (xi u : ℚ) :
    ∀ (n : ℕ) (low high : ℚ),
      (f xi (bisectY f xi u n low high).1 < u ∨ (bisectY f xi u n low high).1 = low) ∧
      (u ≤ f xi (bisectY f xi u n low high).2 ∨ (bisectY f xi u n low high).2 = high) := by
  intro n
  induction n with
  | zero => intro low high; exact ⟨Or.inr rfl, Or.inr rfl⟩
  | succ m ih =>
    intro low high
    simp only [bisectY]
    split_ifs with hw hm
    · obtain ⟨h1, h2⟩ := ih ((low + high)/2) high
      refine ⟨?_, h2⟩
      rcases h1 with h1 | h1
      · exact Or.inl h1
      · exact Or.inl (by rw [h1]; exact hm)
    · obtain ⟨h1, h2⟩ := ih low ((low + high)/2)
      refine ⟨h1, ?_⟩
      rcases h2 with h2 | h2
      · exact Or.inl h2
      · exact Or.inl (by rw [h2]; exact le_of_not_lt hm)
    · exact ⟨Or.inr rfl, Or.inr rfl⟩

/-- C5.  For every curve returned by `calculate_indifference_curves` at its
utility level `u`, and every sample index `i`: if the utility is monotone
non-decreasing in `y` on `[0.1, max_y]` at that abscissa, the level `u` is
attained on `[0.1, max_y]`, and the fuel covers the bisection's halvings
(`(max_y - 0.1)/2^fuel ≤ 1e-6`, the loop's own exit condition), then the
returned `y_i` is within `1e-6` of an exact solution of `f(x_i, y) = u`. -/
theorem C5_indifference_bisection (f : ℚ → ℚ → ℚ) (max_x max_y : ℚ)
    (nc fuel : ℕ) (curve : List ℚ × List ℚ)
    (hcurve : curve ∈ calculate_indifference_curves f max_x max_y nc fuel) :
    ∃ u ∈ indifferenceLevels f max_x max_y nc,
      ∀ i : ℕ, ∀ hi : i < curve.1.length, ∀ hi2 : i < curve.2.length,
        (∀ y1 y2 : ℚ, 1/10 ≤ y1 → y1 ≤ y2 → y2 ≤ max_y →
          f (curve.1.get ⟨i, hi⟩) y1 ≤ f (curve.1.get ⟨i, hi⟩) y2) →
        (∃ yr : ℚ, 1/10 ≤ yr ∧ yr ≤ max_y ∧ f (curve.1.get ⟨i, hi⟩) yr = u) →
        max_y - 1/10 ≤ (1/1000000) * 2^fuel →
        ∃ ystar : ℚ, f (curve.1.get ⟨i, hi⟩) ystar = u ∧
          |curve.2.get ⟨i, hi2⟩ - ystar| ≤ 1/1000000 := by
  simp only [calculate_indifference_curves] at hcurve
  obtain ⟨u, hu, hcv⟩ := List.mem_map.mp hcurve
  refine ⟨u, hu, ?_⟩
  subst hcv
  intro i hi hi2 hmono hroot hfuel
  simp only [List.get_eq_getElem, List.getElem_map] at hi2 hmono hroot ⊢
  obtain ⟨yr, hyr1, hyr2, hyru⟩ := hroot
  have hlh : (1:ℚ)/10 ≤ max_y := le_trans hyr1 hyr2
  set xi := (linspace (1/10) max_x 100)[i] with hxi
  set r := bisectY f xi u fuel (1/10) max_y with hr
  obtain ⟨hb1, hb2, hb3⟩ := bisectY_le f xi u fuel (1/10) max_y hlh
  have hwidth : r.2 - r.1 ≤ 1/1000000 := by
    refine le_trans (bisectY_width f xi u fuel (1/10) max_y) (max_le (le_refl _) ?_)
    rw [div_le_iff (by positivity)]
    linarith [hfuel]
  obtain ⟨hinv1, hinv2⟩ := bisectY_inv f xi u fuel (1/10) max_y
  rcases lt_or_le yr r.1 with hc1 | hc1
  · rcases hinv1 with hlow | hlow
    · exfalso
      have := hmono yr r.1 hyr1 (le_of_lt hc1) (le_trans hb2 hb3)
      rw [hyru] at this
      linarith
    · exfalso
      rw [hlow] at hc1
      linarith
  · rcases le_or_lt yr r.2 with hc2 | hc2
    · refine ⟨yr, hyru, ?_⟩
      rw [abs_of_nonpos (by linarith)]
      linarith
    · rcases hinv2 with hhigh | hhigh
      · refine ⟨r.2, ?_, ?_⟩
        · have := hmono r.2 yr (le_trans hb1 hb2) (le_of_lt hc2) hyr2
          rw [hyru] at this
          exact le_antisymm this hhigh
        · rw [abs_of_nonpos (by linarith)]
          linarith
      · exfalso
        rw [hhigh] at hc2
        linarith

/-- C5 witness: `f(x, y) = y` on the unit box with a single level `u = 1/4`
and fuel 25; the first sample of the returned curve is within `1e-6` of the
exact solution. -/
theorem headI_mem_of_length_pos {α : Type} [Inhabited α] {l : List α}
    (h : 0 < l.length) : l.headI ∈ l := by
  cases l with
  | nil => simp at h
  | cons a as => exact List.mem_cons_self a as

theorem get_zero_eq_headI {α : Type} [Inhabited α] (l : List α) (h : 0 < l.length) :
    l.get ⟨0, h⟩ = l.headI := by
  cases l with
  | nil => simp at h
  | cons a as => rfl

theorem C5_witness :
    ∃ ystar : ℚ, ylinUtil (1/10) ystar = 1/4 ∧
      |(1310717:ℚ)/5242880 - ystar| ≤ 1/1000000 := by
  have hlen : 0 < (calculate_indifference_curves ylinUtil 1 1 1 25).length := by decide!
  have hmem := headI_mem_of_length_pos hlen
  obtain ⟨u, hu, hP⟩ := C5_indifference_bisection ylinUtil 1 1 1 25 _ hmem
  have hlev : indifferenceLevels ylinUtil 1 1 1 = [1/4] := by decide!
  rw [hlev] at hu
  have hu4 : u = 1/4 := by simpa using hu
  subst hu4
  have hi : 0 < (calculate_indifference_curves ylinUtil 1 1 1 25).headI.1.length := by
    decide!
  have hi2 : 0 < (calculate_indifference_curves ylinUtil 1 1 1 25).headI.2.length := by
    decide!
  have hcon := hP 0 hi hi2 (fun y1 y2 _ h12 _ => h12)
    ⟨1/4, by norm_num, by norm_num, rfl⟩ (by norm_num)
  have hgx : (calculate_indifference_curves ylinUtil 1 1 1 25).headI.1.headI = 1/10 := by
    decide!
  have hgy : (calculate_indifference_curves ylinUtil 1 1 1 25).headI.2.headI =
      1310717/5242880 := by decide!
  rw [get_zero_eq_headI _ hi, get_zero_eq_headI _ hi2, hgx, hgy] at hcon
  exact hcon

/-- Modelled sympy behavior at the concrete input string `"z"`: `sympify("z")`
succeeds (any bare symbol parses to a sympy `Symbol`), `lambdify((x, y), z)`
succeeds and produces a callable, and calling that callable raises
`NameError: name 'z' is not defined` because `z` is not among the bound
variables.  Only the value at `"z"` is relied upon. -/
def sympifyZ : String → Except String Unit := fun _ => Except.ok ()

/-- The `lambdify` half of the modelled boundary for the string `"z"`: a
callable whose every invocation fails. -/
def lambdifyZ : Unit → Except String (ℚ → ℚ → Except String ℚ) :=
  fun _ => Except.ok (fun _ _ => Except.error "NameError: name z is not defined")

/-- C7.  The claim asserts `parse_utility_function` also raises when
evaluating the parsed expression at a probe point would raise.  The source
performs no probe evaluation: with the modelled sympy boundary, the string
`"z"` parses successfully and `parse_utility_function` returns a callable
whose every later call fails, instead of raising. -/
theorem C7_counterexample :
    ¬ (∀ s : String,
        (∃ e, sympifyZ s = Except.ok e ∧
          ∃ g, lambdifyZ e = Except.ok g ∧ ∃ err, g 1 1 = Except.error err) →
        ∃ msg, parse_utility_function Unit sympifyZ lambdifyZ s = Except.error msg) := by
  intro h
  obtain ⟨msg, hmsg⟩ := h "z" ⟨(), rfl, (fun _ _ => Except.error "NameError: name z is not defined"),
    rfl, "NameError: name z is not defined", rfl⟩
  exact absurd hmsg (by simp [parse_utility_function, sympifyZ, lambdifyZ, Except.bind])

/-- C7 (amended).  `parse_utility_function` raises the single descriptive
`ValueError` (message prefixed `Invalid utility function: `) exactly when the
`sympify`/`lambdify` pipeline itself fails, and otherwise returns the produced
callable unexamined — it never probe-evaluates it, so an expression that
parses but fails at evaluation yields a callable that fails when later
called. -/
theorem C7_parse_error_behavior (E : Type) (sympify : String → Except String E)
    (lambdify : E → Except String (ℚ → ℚ → Except String ℚ)) (s : String) :
    (∀ err, (sympify s).bind lambdify = Except.error err →
      parse_utility_function E sympify lambdify s =
        Except.error ("Invalid utility function: " ++ err)) ∧
    (∀ g, (sympify s).bind lambdify = Except.ok g →
      parse_utility_function E sympify lambdify s = Except.ok g) := by
  constructor <;> intro v hv <;> simp [parse_utility_function, hv]

/-- C7 witness: the ok-branch of the amended theorem at the modelled boundary
and the string `"z"`: the failing callable is returned, not an error. -/
theorem C7_witness :
    parse_utility_function Unit sympifyZ lambdifyZ "z" =
      Except.ok (fun _ _ => Except.error "NameError: name z is not defined") :=
  (C7_parse_error_behavior Unit sympifyZ lambdifyZ "z").2 _ rfl

/-- Shape of one iteration of the source's step-halving local searches: when
the state's stored value is the objective at its position, a pass either
leaves position and value unchanged and halves the step (no improving
neighbor), or keeps the step and moves to `pos ± step` inside the open
interval, strictly decreasing the objective (in the `optLt` float order). -/
def IsDescentPass (F : ℚ → Option ℚ) (lo hi : ℚ)
    (pass : ℚ × Option ℚ × ℚ → ℚ × Option ℚ × ℚ) : Prop :=
  ∀ s : ℚ × Option ℚ × ℚ, s.2.1 = F s.1 →
    ((pass s).1 = s.1 ∧ (pass s).2.1 = s.2.1 ∧ (pass s).2.2 = s.2.2 / 2) ∨
    ((pass s).2.2 = s.2.2 ∧
     ((pass s).1 = s.1 - s.2.2 ∨ (pass s).1 = s.1 + s.2.2) ∧
     lo < (pass s).1 ∧ (pass s).1 < hi ∧
     (pass s).2.1 = F (pass s).1 ∧
     optLt (F (pass s).1) (F s.1) = true)

/-- Bound on the index of any lattice point `base + k * step` that lies in
the open search interval. -/
def latticeBound (lo hi base δ : ℚ) : ℤ :=
  ⌈(|lo| + |hi| + |base|) / δ⌉ + 1

/-- The finite set of lattice indices whose objective value beats `v`; an
improving move shrinks it strictly, which bounds the number of moves at a
fixed step size. -/
def betterSet (F : ℚ → Option ℚ) (lo hi base δ : ℚ) (v : Option ℚ) : Finset ℤ :=
  (Finset.Icc (-(latticeBound lo hi base δ)) (latticeBound lo hi base δ)).filter
    (fun k => optLt (F (base + k * δ)) v = true)

theorem mem_latticeIcc {lo hi base δ : ℚ} (hδ : 0 < δ) (m : ℤ)
    (h1 : lo < base + m * δ) (h2 : base + m * δ < hi) :
    m ∈ Finset.Icc (-(latticeBound lo hi base δ)) (latticeBound lo hi base δ) := by
  rw [Finset.mem_Icc]
  have habs : |base + m * δ| ≤ |lo| + |hi| := by
    rw [abs_le]
    constructor
    · have := neg_abs_le lo
      have := abs_nonneg hi
      linarith
    · have := le_abs_self hi
      have := abs_nonneg lo
      linarith
  have hb : |(m:ℚ)| * δ ≤ |lo| + |hi| + |base| := by
    have he : |(m:ℚ)| * δ = |(m:ℚ) * δ| := by rw [abs_mul, abs_of_pos hδ]
    have he2 : (m:ℚ) * δ = (base + m * δ) - base := by ring
    rw [he, he2]
    calc |(base + m * δ) - base| ≤ |base + m * δ| + |base| := abs_sub _ _
    _ ≤ |lo| + |hi| + |base| := by linarith
  have h3 : |(m:ℚ)| ≤ (|lo| + |hi| + |base|)/δ := (le_div_iff hδ).mpr hb
  have h4 : ((|lo| + |hi| + |base|)/δ : ℚ) ≤ ((latticeBound lo hi base δ : ℤ) : ℚ) := by
    unfold latticeBound
    push_cast
    linarith [Int.le_ceil ((|lo| + |hi| + |base|)/δ)]
  have h5 := abs_le.mp (le_trans h3 h4)
  constructor
  · have := h5.1
    have hcast : ((-(latticeBound lo hi base δ) : ℤ) : ℚ) ≤ ((m : ℤ) : ℚ) := by
      push_cast
      push_cast at this
      linarith
    exact_mod_cast hcast
  · have hcast : ((m : ℤ) : ℚ) ≤ ((latticeBound lo hi base δ : ℤ) : ℚ) := h5.2
    exact_mod_cast hcast

theorem descent_reaches_half (F : ℚ → Option ℚ) (lo hi : ℚ)
    (pass : ℚ × Option ℚ × ℚ → ℚ × Option ℚ × ℚ) (hP : IsDescentPass F lo hi pass)
    (base δ : ℚ) (hδ : 0 < δ) :
    ∀ (N : ℕ) (s : ℚ × Option ℚ × ℚ), s.2.1 = F s.1 → s.2.2 = δ →
      (∃ m : ℤ, s.1 = base + m * δ) →
      (betterSet F lo hi base δ (F s.1)).card ≤ N →
      ∃ n : ℕ, (pass^[n] s).2.2 = δ / 2 ∧ (pass^[n] s).2.1 = F (pass^[n] s).1 := by
  intro N
  induction N with
  | zero =>
    intro s hval hstep hm hcard
    rcases hP s hval with ⟨h1, h2, h3⟩ | ⟨h1, h2, h3, h4, h5, h6⟩
    · refine ⟨1, ?_, ?_⟩
      · rw [Function.iterate_one, h3, hstep]
      · rw [Function.iterate_one, h2, hval, h1]
    · exfalso
      obtain ⟨m, hm⟩ := hm
      have hm' : ∃ m' : ℤ, (pass s).1 = base + m' * δ := by
        rcases h2 with h2 | h2
        · exact ⟨m - 1, by rw [h2, hm, hstep]; push_cast; ring⟩
        · exact ⟨m + 1, by rw [h2, hm, hstep]; push_cast; ring⟩
      obtain ⟨m', hm'e⟩ := hm'
      have hmem : m' ∈ betterSet F lo hi base δ (F s.1) := by
        unfold betterSet
        rw [Finset.mem_filter]
        refine ⟨mem_latticeIcc hδ m' (by rw [← hm'e]; exact h3)
          (by rw [← hm'e]; exact h4), ?_⟩
        rw [← hm'e]
        exact h6
      have hzero : (betterSet F lo hi base δ (F s.1)).card = 0 := Nat.le_zero.mp hcard
      rw [Finset.card_eq_zero] at hzero
      rw [hzero] at hmem
      exact absurd hmem (Finset.not_mem_empty m')
  | succ M ih =>
    intro s hval hstep hm hcard
    rcases hP s hval with ⟨h1, h2, h3⟩ | ⟨h1, h2, h3, h4, h5, h6⟩
    · refine ⟨1, ?_, ?_⟩
      · rw [Function.iterate_one, h3, hstep]
      · rw [Function.iterate_one, h2, hval, h1]
    · obtain ⟨m, hm⟩ := hm
      have hm' : ∃ m' : ℤ, (pass s).1 = base + m' * δ := by
        rcases h2 with h2 | h2
        · exact ⟨m - 1, by rw [h2, hm, hstep]; push_cast; ring⟩
        · exact ⟨m + 1, by rw [h2, hm, hstep]; push_cast; ring⟩
      obtain ⟨m', hm'e⟩ := hm'
      have hmem : m' ∈ betterSet F lo hi base δ (F s.1) := by
        unfold betterSet
        rw [Finset.mem_filter]
        refine ⟨mem_latticeIcc hδ m' (by rw [← hm'e]; exact h3)
          (by rw [← hm'e]; exact h4), ?_⟩
        rw [← hm'e]
        exact h6
      have hnot : m' ∉ betterSet F lo hi base δ (F (pass s).1) := by
        unfold betterSet
        rw [Finset.mem_filter]
        rintro ⟨_, hopt⟩
        rw [← hm'e, optLt_irrefl] at hopt
        exact absurd hopt (by simp)
      have hsub : betterSet F lo hi base δ (F (pass s).1) ⊆
          betterSet F lo hi base δ (F s.1) := by
        intro k hk
        unfold betterSet at hk ⊢
        rw [Finset.mem_filter] at hk ⊢
        exact ⟨hk.1, optLt_trans hk.2 h6⟩
      have hlt : (betterSet F lo hi base δ (F (pass s).1)).card <
          (betterSet F lo hi base δ (F s.1)).card :=
        Finset.card_lt_card ((Finset.ssubset_iff_of_subset hsub).mpr ⟨m', hmem, hnot⟩)
      obtain ⟨n, hn1, hn2⟩ := ih (pass s) h5 (h1.trans hstep) ⟨m', hm'e⟩ (by omega)
      refine ⟨n + 1, ?_, ?_⟩
      · rw [Function.iterate_succ_apply]
        exact hn1
      · rw [Function.iterate_succ_apply]
        exact hn2

theorem descent_reaches_small (F : ℚ → Option ℚ) (lo hi : ℚ)
    (pass : ℚ × Option ℚ × ℚ → ℚ × Option ℚ × ℚ) (hP : IsDescentPass F lo hi pass) :
    ∀ (j : ℕ) (s : ℚ × Option ℚ × ℚ), s.2.1 = F s.1 → 0 < s.2.2 →
      ∃ n : ℕ, (pass^[n] s).2.2 = s.2.2 / 2^j ∧
        (pass^[n] s).2.1 = F (pass^[n] s).1 := by
  intro j
  induction j with
  | zero => intro s hval hpos; exact ⟨0, by simp, hval⟩
  | succ J ih =>
    intro s hval hpos
    obtain ⟨n, hn1, hn2⟩ := ih s hval hpos
    have hpos2 : 0 < (pass^[n] s).2.2 := by rw [hn1]; positivity
    obtain ⟨k, hk1, hk2⟩ := descent_reaches_half F lo hi pass hP ((pass^[n] s).1)
      ((pass^[n] s).2.2) hpos2 (betterSet F lo hi ((pass^[n] s).1) ((pass^[n] s).2.2)
        (F (pass^[n] s).1)).card (pass^[n] s) hn2 rfl ⟨0, by push_cast; ring⟩ (le_refl _)
    refine ⟨k + n, ?_, ?_⟩
    · rw [Function.iterate_add_apply, hk1, hn1, div_div, ← pow_succ]
    · rw [Function.iterate_add_apply]
      exact hk2

theorem fueledLoop_stable {α : Type} (pass : α → α) (again : α → Bool)
    (s : α) (h : again s = false) : ∀ n, fueledLoop pass again n s = s := by
  intro n
  cases n with
  | zero => rfl
  | succ m => simp [fueledLoop, h]

theorem fueledLoop_reaches {α : Type} (pass : α → α) (again : α → Bool) :
    ∀ (N : ℕ) (s : α), again (pass^[N] s) = false →
      ∃ n : ℕ, again (fueledLoop pass again n s) = false ∧
        ∀ m : ℕ, fueledLoop pass again (n + m) s = fueledLoop pass again n s := by
  intro N
  induction N with
  | zero =>
    intro s h
    refine ⟨0, h, fun m => ?_⟩
    rw [Nat.zero_add]
    exact fueledLoop_stable pass again s h m
  | succ M ih =>
    intro s h
    cases h0 : again s with
    | false =>
      refine ⟨0, h0, fun m => ?_⟩
      rw [Nat.zero_add]
      exact fueledLoop_stable pass again s h0 m
    | true =>
      have h' : again (pass^[M] (pass s)) = false := by
        have he : pass^[M.succ] s = pass^[M] (pass s) := Function.iterate_succ_apply pass M s
        rw [← he]
        exact h
      obtain ⟨n, hn1, hn2⟩ := ih (pass s) h'
      refine ⟨n + 1, ?_, ?_⟩
      · show again (fueledLoop pass again (n + 1) s) = false
        rw [show fueledLoop pass again (n + 1) s = fueledLoop pass again n (pass s) by
          simp [fueledLoop, h0]]
        exact hn1
      · intro m
        rw [show n + 1 + m = (n + m) + 1 by omega]
        rw [show fueledLoop pass again ((n + m) + 1) s =
          fueledLoop pass again (n + m) (pass s) by simp [fueledLoop, h0]]
        rw [show fueledLoop pass again (n + 1) s = fueledLoop pass again n (pass s) by
          simp [fueledLoop, h0]]
        exact hn2 m

theorem offerPass_descent (diffAt : ℚ → Option ℚ) (lo hi : ℚ) :
    IsDescentPass diffAt lo hi (offerPass diffAt lo hi) := by
  intro s hval
  rcases offerPass_cases diffAt lo hi s hval with h | h
  · left
    rw [h]
    exact ⟨rfl, rfl, rfl⟩
  · right
    exact h

theorem walrasPass_cases (F : ℚ → Option ℚ) (lo hi : ℚ) (x st : ℚ) :
    (walrasPass F lo hi (x, st) = (x, st / 2)) ∨
    ((walrasPass F lo hi (x, st)).2 = st ∧
     ((walrasPass F lo hi (x, st)).1 = x - st ∨ (walrasPass F lo hi (x, st)).1 = x + st) ∧
     lo < (walrasPass F lo hi (x, st)).1 ∧ (walrasPass F lo hi (x, st)).1 < hi ∧
     optLt (F (walrasPass F lo hi (x, st)).1) (F x) = true) := by
  simp only [walrasPass]
  by_cases h1 : (lo < x - st ∧ x - st < hi) ∧ optLt (F (x - st)) (F x) = true
  · rw [if_pos h1]
    exact Or.inr ⟨rfl, Or.inl rfl, h1.1.1, h1.1.2, h1.2⟩
  · rw [if_neg h1]
    by_cases h2 : (lo < x + st ∧ x + st < hi) ∧ optLt (F (x + st)) (F x) = true
    · rw [if_pos h2]
      exact Or.inr ⟨rfl, Or.inr rfl, h2.1.1, h2.1.2, h2.2⟩
    · rw [if_neg h2]
      exact Or.inl rfl

/-- The `find_walrasian_equilibrium` descent pass lifted to the
`(position, value, step)` state used by the termination argument, tracking
`demand_excess` at the current position (the source recomputes it at each
comparison; the lifted state only makes that value explicit). -/
def walrasPassT (F : ℚ → Option ℚ) (lo hi : ℚ) (s : ℚ × Option ℚ × ℚ) :
    ℚ × Option ℚ × ℚ :=
  ((walrasPass F lo hi (s.1, s.2.2)).1, F (walrasPass F lo hi (s.1, s.2.2)).1,
   (walrasPass F lo hi (s.1, s.2.2)).2)

theorem walrasPassT_descent (F : ℚ → Option ℚ) (lo hi : ℚ) :
    IsDescentPass F lo hi (walrasPassT F lo hi) := by
  intro s hval
  rcases walrasPass_cases F lo hi s.1 s.2.2 with h | ⟨h1, h2, h3, h4, h5⟩
  · left
    unfold walrasPassT
    rw [h]
    exact ⟨rfl, hval.symm, rfl⟩
  · right
    unfold walrasPassT
    exact ⟨h1, h2, h3, h4, rfl, h5⟩

theorem walrasDescend_eq_lift (F : ℚ → Option ℚ) (lo hi : ℚ) :
    ∀ (n : ℕ) (x st : ℚ),
      walrasDescend F lo hi n (x, st) =
        ((fueledLoop (walrasPassT F lo hi) (fun s => decide (s.2.2 > 1/10000)) n
            (x, F x, st)).1,
         (fueledLoop (walrasPassT F lo hi) (fun s => decide (s.2.2 > 1/10000)) n
            (x, F x, st)).2.2) := by
  intro n
  induction n with
  | zero => intro x st; rfl
  | succ m ih =>
    intro x st
    simp only [walrasDescend, fueledLoop]
    by_cases hc : st > 1/10000
    · rw [if_pos (by simpa using hc), if_pos (by simpa using hc)]
      have hT : walrasPassT F lo hi (x, F x, st) =
          ((walrasPass F lo hi (x, st)).1, F (walrasPass F lo hi (x, st)).1,
           (walrasPass F lo hi (x, st)).2) := rfl
      rw [hT]
      have := ih (walrasPass F lo hi (x, st)).1 (walrasPass F lo hi (x, st)).2
      simp only [walrasDescend] at this
      exact this
    · rw [if_neg (by simpa using hc), if_neg (by simpa using hc)]

/-- C10.  For every (total, hence finite-valued) pair of utility functions,
both step-halving local searches terminate: some fuel brings the
`calculate_offer_curves` refinement to `dy ≤ 1e-6 * total_y` (needs
`total_y > 0`, as in the source where `dy` starts at `0.1 * total_y`) and the
`find_walrasian_equilibrium` descent to `step ≤ 1e-4`, and the loops are
unchanged by any further fuel.  At a fixed step the improving moves strictly
shrink the finite set of better lattice positions inside the open box, so the
step is eventually halved; after 17 (resp. 10) halvings the bound holds. -/
theorem C10_local_search_terminates (fa fb : ℚ → ℚ → ℚ) (tx ty x_base p x0 y0 : ℚ)
    (hty : 0 < ty) (d0 : Option ℚ) (hd0 : d0 = offerDiffAt fa fb tx ty x_base y0) :
    (∃ n : ℕ, (offerRefine (offerDiffAt fa fb tx ty x_base) (ty/100) (99*ty/100)
          (ty/1000000) n (y0, d0, ty/10)).2.2 ≤ ty/1000000 ∧
        ∀ m : ℕ, offerRefine (offerDiffAt fa fb tx ty x_base) (ty/100) (99*ty/100)
            (ty/1000000) (n + m) (y0, d0, ty/10) =
          offerRefine (offerDiffAt fa fb tx ty x_base) (ty/100) (99*ty/100)
            (ty/1000000) n (y0, d0, ty/10)) ∧
    (∃ n : ℕ, (walrasDescend (demand_excess fa fb tx ty p) (1/10) (tx - 1/10) n
          (x0, 1/10)).2 ≤ 1/10000 ∧
        ∀ m : ℕ, walrasDescend (demand_excess fa fb tx ty p) (1/10) (tx - 1/10) (n + m)
            (x0, 1/10) =
          walrasDescend (demand_excess fa fb tx ty p) (1/10) (tx - 1/10) n (x0, 1/10)) := by
  constructor
  · obtain ⟨N, hN1, _⟩ := descent_reaches_small (offerDiffAt fa fb tx ty x_base)
      (ty/100) (99*ty/100) (offerPass (offerDiffAt fa fb tx ty x_base) (ty/100) (99*ty/100))
      (offerPass_descent (offerDiffAt fa fb tx ty x_base) (ty/100) (99*ty/100)) 17
      (y0, d0, ty/10) hd0 (by positivity)
    have hsmall : ((offerPass (offerDiffAt fa fb tx ty x_base) (ty/100)
        (99*ty/100))^[N] (y0, d0, ty/10)).2.2 ≤ ty/1000000 := by
      rw [hN1]
      show (ty/10) / 2^17 ≤ ty/1000000
      rw [show ((2:ℚ)^17) = 131072 by norm_num, div_div,
        show ((10:ℚ) * 131072) = 1310720 by norm_num]
      rw [div_le_div_iff (by norm_num) (by norm_num)]
      have := mul_le_mul_of_nonneg_left (show (1000000:ℚ) ≤ 1310720 by norm_num) hty.le
      linarith
    obtain ⟨n, hn1, hn2⟩ := fueledLoop_reaches
      (offerPass (offerDiffAt fa fb tx ty x_base) (ty/100) (99*ty/100))
      (fun s => decide (s.2.2 > ty/1000000)) N (y0, d0, ty/10)
      (decide_eq_false (not_lt.mpr hsmall))
    exact ⟨n, not_lt.mp (of_decide_eq_false hn1), hn2⟩
  · obtain ⟨N, hN1, _⟩ := descent_reaches_small (demand_excess fa fb tx ty p) (1/10)
      (tx - 1/10) (walrasPassT (demand_excess fa fb tx ty p) (1/10) (tx - 1/10))
      (walrasPassT_descent (demand_excess fa fb tx ty p) (1/10) (tx - 1/10)) 10
      (x0, demand_excess fa fb tx ty p x0, 1/10) rfl (by norm_num)
    have hsmall : ((walrasPassT (demand_excess fa fb tx ty p) (1/10) (tx - 1/10))^[N]
        (x0, demand_excess fa fb tx ty p x0, 1/10)).2.2 ≤ 1/10000 := by
      rw [hN1]
      norm_num
    obtain ⟨n, hn1, hn2⟩ := fueledLoop_reaches
      (walrasPassT (demand_excess fa fb tx ty p) (1/10) (tx - 1/10))
      (fun s => decide (s.2.2 > 1/10000)) N
      (x0, demand_excess fa fb tx ty p x0, 1/10)
      (decide_eq_false (not_lt.mpr hsmall))
    refine ⟨n, ?_, ?_⟩
    · rw [walrasDescend_eq_lift]
      exact not_lt.mp (of_decide_eq_false hn1)
    · intro m
      rw [walrasDescend_eq_lift, walrasDescend_eq_lift, hn2 m]

/-- C10 witness: both termination statements instantiated for
`f_a = f_b = x*y` on the box with totals `10`, slice `x_base = 5`, price
ratio `1`, and starting points `y0 = 5`, `x0 = 3`. -/
theorem C10_witness :
    (∃ n : ℕ, (offerRefine (offerDiffAt xyUtil xyUtil 10 10 5) (10/100) (99*10/100)
          (10/1000000) n (5, offerDiffAt xyUtil xyUtil 10 10 5 5, 10/10)).2.2 ≤
            10/1000000 ∧
        ∀ m : ℕ, offerRefine (offerDiffAt xyUtil xyUtil 10 10 5) (10/100) (99*10/100)
            (10/1000000) (n + m) (5, offerDiffAt xyUtil xyUtil 10 10 5 5, 10/10) =
          offerRefine (offerDiffAt xyUtil xyUtil 10 10 5) (10/100) (99*10/100)
            (10/1000000) n (5, offerDiffAt xyUtil xyUtil 10 10 5 5, 10/10)) ∧
    (∃ n : ℕ, (walrasDescend (demand_excess xyUtil xyUtil 10 10 1) (1/10) (10 - 1/10) n
          (3, 1/10)).2 ≤ 1/10000 ∧
        ∀ m : ℕ, walrasDescend (demand_excess xyUtil xyUtil 10 10 1) (1/10) (10 - 1/10)
            (n + m) (3, 1/10) =
          walrasDescend (demand_excess xyUtil xyUtil 10 10 1) (1/10) (10 - 1/10) n
            (3, 1/10)) :=
  C10_local_search_terminates xyUtil xyUtil 10 10 5 1 3 5 (by norm_num)
    (offerDiffAt xyUtil xyUtil 10 10 5 5) rfl
